import Mathlib

/-
  Verification of the galahad/joeflow workflow engine (src/galahad/models.py,
  src/galahad/views.py, src/joeflow/views.py) against its specification.

  The embedding models the Django ORM shallowly:
    * a `Task` row is a record of its columns; the many-to-many
      `parent_task_set` is a separate list of (parent pk, child pk) pairs;
    * the database is a `DB` record holding the task rows, the parent links,
      the process rows, a fresh-id counter and the current clock
      (`timezone.now`);
    * `save(update_fields=...)` writes only the named columns of the row
      (Django semantics), raising — modelled as `Except.error` — exactly
      where the Python code raises;
    * `transaction.on_commit(f)` appends a deferred `Action` to the ambient
      transaction state `St`; `St.commit` runs the deferred actions in order,
      in autocommit mode (a hook registered while running a hook fires
      immediately, as Django does outside an atomic block).
-/

set_option linter.unusedVariables false

namespace Galahad

/-- Node type constant (galahad.tasks.HUMAN / Task.HUMAN). -/
def HUMAN : String := "human"

/-- Node type constant (galahad.tasks.MACHINE / Task.MACHINE). -/
def MACHINE : String := "machine"

/-- Task status constant Task.FAILED. -/
def FAILED : String := "failed"

/-- Task status constant Task.SUCCEEDED. -/
def SUCCEEDED : String := "succeeded"

/-- Task status constant Task.SCHEDULED. -/
def SCHEDULED : String := "scheduled"

/-- A graph node of a process class.  In the source a node is either a
`TaskViewMixin` view instance (a human task: not callable, possibly a
`BaseCreateView`) or a plain function (a machine task: callable).  The
metaclass `BaseProcess` assigns `node_type` accordingly. -/
inductive Node where
  | humanView (node_name : String) (isBaseCreate : Bool)
  | machineFunc (node_name : String)
deriving DecidableEq, Repr

/-- The `node_name` attribute set by the metaclass. -/
def Node.node_name : Node → String
  | Node.humanView n _ => n
  | Node.machineFunc n => n

/-- Python `isinstance(node, views.TaskViewMixin)`. -/
def Node.isTaskViewMixin : Node → Bool
  | Node.humanView _ _ => true
  | Node.machineFunc _ => false

/-- Python `isinstance(node, BaseCreateView)`. -/
def Node.isBaseCreateView : Node → Bool
  | Node.humanView _ b => b
  | Node.machineFunc _ => false

/-- Python `callable(node)`: view instances are not callable, functions are. -/
def Node.isCallable : Node → Bool
  | Node.humanView _ _ => false
  | Node.machineFunc _ => true

/-- The `node_type` attribute set by the metaclass `BaseProcess`:
`tasks.HUMAN if isinstance(node, views.TaskViewMixin) else tasks.MACHINE`. -/
def Node.node_type (n : Node) : String :=
  if n.isTaskViewMixin then HUMAN else MACHINE

/-- Class-level data of a concrete `Process` subclass: its name (used for the
URL namespace) and its `edges` list of (start node, end node) pairs. -/
structure ProcessCls where
  name : String
  edges : List (Node × Node)
deriving DecidableEq, Repr

/-- `Process.get_nodes`: the set of nodes occurring in any edge, as
(node_name, node) pairs.  Python iterates a `set`, whose order is arbitrary;
we model it as the edge-occurrence order with duplicates removed. -/
def ProcessCls.get_nodes (cls : ProcessCls) : List (String × Node) :=
  ((cls.edges.foldl (fun ns e => ns ++ [e.1, e.2]) []).dedup).map
    (fun n => (n.node_name, n))

/-- `Process.get_node(name)`: node lookup by name (`dict(cls.get_nodes())[name]`;
`none` models the `KeyError`). -/
def ProcessCls.get_node (cls : ProcessCls) (name : String) : Option Node :=
  ((cls.get_nodes).find? (fun p => p.1 == name)).map (fun p => p.2)

/-- `Process.get_next_nodes(prev_node)`: end nodes of all edges whose start
node has the same `node_name` as `prev_node`. -/
def ProcessCls.get_next_nodes (cls : ProcessCls) (prev : Node) : List Node :=
  (cls.edges.filter (fun e => e.1.node_name == prev.node_name)).map
    (fun e => e.2)

/-- `Process.get_url_namespace`: the lowercased class name. -/
def ProcessCls.get_url_namespace (cls : ProcessCls) : String :=
  cls.name.toLower

/-- One generated URL pattern: the route string and the url name. -/
structure UrlPattern where
  route : String
  name : String
deriving DecidableEq, Repr

/-- `Process.urls`: one route per human node (`'{name}/'` for a
`BaseCreateView`, `'{name}/<pk>/'` otherwise), no route for machine nodes,
then always the detail view at `'<pk>/'` and the override view at
`'<pk>/override'` appended at the end. -/
def ProcessCls.urls (cls : ProcessCls) : List UrlPattern :=
  ((cls.get_nodes).filterMap (fun p =>
    if p.2.isTaskViewMixin then
      some { route := if p.2.isBaseCreateView then p.1 ++ "/" else p.1 ++ "/<pk>/",
             name := p.1 }
    else none))
  ++ [ { route := "<pk>/", name := "detail" },
       { route := "<pk>/override", name := "override" } ]

/-- A `Task` row: one column per persisted model field.  The many-to-many
fields (`parent_task_set`, `assignees`) live in join tables, modelled in `DB`;
the `content_type` generic plumbing is dropped (all processes share one
table here), keeping the `_process_id` foreign key. -/
structure Task where
  id : Option Nat := none
  _process_id : Nat := 0
  node_name : String := ""
  node_type : String := ""
  status : String := SCHEDULED
  completed_by_user : Option Nat := none
  created : Nat := 0
  modified : Nat := 0
  completed : Option Nat := none
  exception : String := ""
  stacktrace : String := ""
deriving DecidableEq, Repr

/-- A `Process` row: only framework-managed columns exist on the base model. -/
structure ProcessRec where
  id : Option Nat := none
  created : Nat := 0
  modified : Nat := 0
deriving DecidableEq, Repr

/-- The relational state: task rows, the `parent_task_set` join table as
(parent pk, child pk) pairs, process rows, the fresh primary-key counters and
the clock. -/
structure DB where
  tasks : List Task := []
  links : List (Nat × Nat) := []
  processes : List ProcessRec := []
  nextId : Nat := 1
  pNextId : Nat := 1
  now : Nat := 0
deriving DecidableEq, Repr

/-- Write one named column of source row `t` into destination row `r`
(Django `update_fields` semantics; primary key and m2m fields are never
update fields). -/
def applyField (field : String) (t : Task) (r : Task) : Task :=
  if field = "node_name" then { r with node_name := t.node_name }
  else if field = "node_type" then { r with node_type := t.node_type }
  else if field = "status" then { r with status := t.status }
  else if field = "completed" then { r with completed := t.completed }
  else if field = "completed_by_user" then { r with completed_by_user := t.completed_by_user }
  else if field = "exception" then { r with exception := t.exception }
  else if field = "stacktrace" then { r with stacktrace := t.stacktrace }
  else if field = "modified" then { r with modified := t.modified }
  else r

/-- UPDATE of the columns `fields` of the row with primary key `pk`, taking
the values from the in-memory instance `t`; the `auto_now` field `modified`
is set to the clock on the instance first. -/
def DB.updateRow (db : DB) (pk : Nat) (fields : List String) (t : Task) :
    Task × DB :=
  let t2 := { t with modified := db.now }
  (t2, { db with tasks := db.tasks.map (fun r =>
    if r.id = some pk then fields.foldl (fun d f => applyField f t2 d) r else r) })

/-- INSERT of a new task row: a fresh primary key is assigned and the
`auto_now_add` / `auto_now` timestamps are set (Django `Model.save` on an
instance without a pk; also `task_set.create(...)`). -/
def DB.insertTask (db : DB) (t : Task) : Task × DB :=
  let t2 := { t with id := some db.nextId, created := db.now, modified := db.now }
  (t2, { db with tasks := db.tasks ++ [t2], nextId := db.nextId + 1 })

/-- `Task.save`: on a persisted row it demands explicit `update_fields`
(raising otherwise), appends `modified` and updates those columns; on an
unsaved instance it inserts (Django itself raises if `update_fields` is
passed without a primary key). -/
def Task.save (t : Task) (update_fields : Option (List String)) (db : DB) :
    Except String (Task × DB) :=
  match t.id with
  | some pk =>
    match update_fields with
    | none =>
      Except.error "You need to provide explicit update_fields to avoid race conditions."
    | some fields => Except.ok (db.updateRow pk (fields ++ ["modified"]) t)
  | none =>
    match update_fields with
    | some _ => Except.error "Cannot force an update in save with no primary key."
    | none => Except.ok (db.insertTask t)

/-- Write one named column of a `Process` row (`modified` is the only
base-model column that ever appears). -/
def applyProcessField (field : String) (p : ProcessRec) (r : ProcessRec) :
    ProcessRec :=
  if field = "modified" then { r with modified := p.modified } else r

/-- `Process.save`: when the row is persisted and `update_fields` is given it
appends `modified` and updates those columns; when `update_fields` is absent
it silently performs a full-row write (no error is raised, unlike
`Task.save`); without a pk it inserts. -/
def ProcessRec.save (p : ProcessRec) (update_fields : Option (List String))
    (db : DB) : Except String (ProcessRec × DB) :=
  match p.id with
  | some pk =>
    match update_fields with
    | none =>
      let p2 := { p with modified := db.now }
      Except.ok (p2, { db with processes := db.processes.map (fun r =>
        if r.id = some pk then p2 else r) })
    | some fields =>
      let p2 := { p with modified := db.now }
      Except.ok (p2, { db with processes := db.processes.map (fun r =>
        if r.id = some pk then (fields ++ ["modified"]).foldl
          (fun d f => applyProcessField f p2 d) r else r) })
  | none =>
    let p2 := { p with id := some db.pNextId, created := db.now, modified := db.now }
    Except.ok (p2, { db with processes := db.processes ++ [p2],
                             pNextId := db.pNextId + 1 })

/-- `Task.finish`: mark succeeded with a completion timestamp and the
completing user, then save (partial update when persisted, insert when not). -/
def Task.finish (t : Task) (user : Option Nat) (db : DB) :
    Except String (Task × DB) :=
  let t2 := { t with completed := some db.now, status := SUCCEEDED,
                     completed_by_user := user }
  match t2.id with
  | some _ => t2.save (some ["status", "completed", "completed_by_user"]) db
  | none => t2.save none db

/-- Python `str.strip()`: drop leading and trailing whitespace (structural
definition so that concrete inputs evaluate in the kernel). -/
def pyStrip (s : String) : String :=
  String.mk
    (((s.data.dropWhile Char.isWhitespace).reverse.dropWhile Char.isWhitespace).reverse)

/-- `Task.fail`: called with an active exception whose
`traceback.format_exception` rendering is `tb`; stores the stripped final
traceback line in `exception`, the full traceback in `stacktrace`, marks the
status failed and sets the in-memory completion timestamp, then saves — with
`update_fields=['status', 'exception', 'stacktrace']`, exactly as the source
does (note: `completed` is not in the list). -/
def Task.fail (t : Task) (tb : List String) (db : DB) :
    Except String (Task × DB) :=
  let t2 := { t with completed := some db.now, status := FAILED,
                     exception := pyStrip ((tb.getLast?).getD ""),
                     stacktrace := String.join tb }
  t2.save (some ["status", "exception", "stacktrace"]) db

/-- `Task.get_absolute_url`: `None` for a completed task; otherwise reverse
the route named `<namespace>:<node_name>`, swallowing `NoReverseMatch`.
`registered` is the set of resolvable url names; the function is total, so
the embedding cannot raise. -/
def Task.get_absolute_url (t : Task) (cls : ProcessCls)
    (registered : List String) : Option String :=
  match t.completed with
  | some _ => none
  | none =>
    let url_name := cls.get_url_namespace ++ ":" ++ t.node_name
    if url_name ∈ registered then
      some (url_name ++ "/" ++ toString (t.id.getD 0) ++ "/")
    else
      none

/-- A deferred `transaction.on_commit` callback: either the bound method
`task.enqueue` (registered by `start_next_tasks`), or the celery
`task_wrapper.apply_async(args=(task pk, process pk), ...)` submission
(registered inside `enqueue`). -/
inductive Action where
  | runEnqueue (pk : Nat)
  | celerySubmit (pk : Nat) (pid : Nat)
deriving DecidableEq, Repr

/-- The ambient transaction state: the database, the `on_commit` hooks of the
current open transaction, and the celery queue (a submitted task is a
(task pk, process pk) pair). -/
structure St where
  db : DB := {}
  onCommit : List Action := []
  queue : List (Nat × Nat) := []
deriving DecidableEq, Repr

/-- `Task.enqueue` called inside an open transaction: reset status to
scheduled, clear the completion timestamp and the error fields, save exactly
those columns, and register the celery submission with
`transaction.on_commit` — the queue itself is not touched here. -/
def Task.enqueue (t : Task) (s : St) : Except String (Task × St) :=
  let t2 := { t with status := SCHEDULED, completed := none,
                     exception := "", stacktrace := "" }
  match Task.save t2 (some ["status", "completed", "exception", "stacktrace"]) s.db with
  | Except.error e => Except.error e
  | Except.ok r =>
    Except.ok (r.1,
      { s with
        db := r.2
        onCommit := s.onCommit ++
          [Action.celerySubmit (r.1.id.getD 0) (r.1._process_id)] })

/-- Run one committed `on_commit` hook.  `runEnqueue pk` re-loads the task
row and runs `Task.enqueue` in autocommit mode, where the hook that `enqueue`
itself registers fires immediately (Django outside an atomic block); `enqueue`
only ever registers `celerySubmit` hooks, which are executed inline. -/
def St.runAction (s : St) (a : Action) : St :=
  match a with
  | Action.celerySubmit pk pid => { s with queue := s.queue ++ [(pk, pid)] }
  | Action.runEnqueue pk =>
    match s.db.tasks.find? (fun r => r.id == some pk) with
    | none => s
    | some t =>
      match Task.enqueue t { db := s.db, onCommit := [], queue := s.queue } with
      | Except.error _ => s
      | Except.ok r =>
        { db := r.2.db, onCommit := s.onCommit,
          queue := r.2.queue ++ r.2.onCommit.filterMap (fun a =>
            match a with
            | Action.celerySubmit qpk qpid => some (qpk, qpid)
            | _ => none) }

/-- Commit the open transaction: run all deferred hooks in order. -/
def St.commit (s : St) : St :=
  s.onCommit.foldl St.runAction { s with onCommit := [] }

/-- The loop body of `Task.start_next_tasks` over the successor nodes: each
node yields `self.process.task_set.create(node_name=..., node_type=...)`
(no node in this repository implements its own `create_task`, so the
`AttributeError` branch always runs), then `task.parent_task_set.add(self)`,
then — when the node is callable, i.e. a machine node —
`transaction.on_commit(task.enqueue)`. -/
def Task.startLoop (pid selfPk : Nat) : List Node → St → List Task × St
  | [], s => ([], s)
  | node :: rest, s =>
    let r := s.db.insertTask { _process_id := pid, node_name := node.node_name,
                               node_type := node.node_type }
    let task := r.1
    let db2 := { r.2 with links := r.2.links ++ [(selfPk, task.id.getD 0)] }
    let s2 : St :=
      { s with
        db := db2
        onCommit := if node.isCallable then
            s.onCommit ++ [Action.runEnqueue (task.id.getD 0)]
          else s.onCommit }
    let r2 := Task.startLoop pid selfPk rest s2
    (task :: r2.1, r2.2)

/-- `Task.start_next_tasks(next_nodes=None)`: when no nodes are given, the
successors default to `self.process.get_next_nodes(self.node)` where
`self.node = getattr(self.process, self.node_name)` (an `AttributeError`
when the process class has no such node); the parent must be a saved row for
the m2m add to work.  Runs inside `transaction.atomic()`, so all effects are
deferred-hook based (`St.onCommit`) until commit. -/
def Task.start_next_tasks (self : Task) (cls : ProcessCls)
    (next_nodes : Option (List Node)) (s : St) :
    Except String (List Task × St) :=
  let nodesE : Except String (List Node) :=
    match next_nodes with
    | some ns => Except.ok ns
    | none =>
      match cls.get_node self.node_name with
      | some nd => Except.ok (cls.get_next_nodes nd)
      | none => Except.error "AttributeError: process has no node with the name of this task"
  match nodesE with
  | Except.error e => Except.error e
  | Except.ok nodes =>
    match self.id with
    | none => Except.error "ValueError: task must be saved before starting next tasks"
    | some selfPk => Except.ok (Task.startLoop self._process_id selfPk nodes s)

/-- `TaskViewMixin.get_task` (src/galahad/views.py): with a `pk` in the URL
kwargs, `get_object_or_404(Task, pk=..., node_name=self.node_name,
completed=None)` — `Except.error` models the `Http404`; without a `pk`
(the `KeyError` branch of a create view) a fresh unsaved `Task` carrying
only the node name. -/
def TaskViewMixin.get_task (node_name : String) (kwargs_pk : Option Nat)
    (db : DB) : Except String Task :=
  match kwargs_pk with
  | some pk =>
    match db.tasks.find? (fun t =>
        t.id == some pk && t.node_name == node_name && t.completed == none) with
    | some t => Except.ok t
    | none => Except.error "Http404"
  | none => Except.ok { node_name := node_name }

/-- The finishing loop of `ManualOverrideView.form_valid`:
`for task in active_tasks: task.finish()`. -/
def finishActive (l : List Task) (db : DB) : Except String DB :=
  l.foldlM (fun db t => (Task.finish t none db).map (fun r => r.2)) db

/-- `ManualOverrideView.form_valid` together with its helper
`get_next_task_nodes`: resolve the chosen node names (the lazy generator is
resolved eagerly here; a bad name is the same `KeyError` either way), let
`super().form_valid(form)` save the process row (a full-row write — only the
auto-now `modified` column changes, the base model having no editable
columns), force-finish every task of the process with `completed=None`,
create the `manual_override` task (only `node_name` is passed, so
`node_type` keeps the column default, the empty string), point its
`parent_task_set` at exactly the force-completed tasks via `.set(...)`,
finish it, and re-enter the graph with
`start_next_tasks(next_nodes=next_nodes)`. -/
def ManualOverrideView.form_valid (cls : ProcessCls) (processPk : Nat)
    (next_tasks : List String) (s : St) : Except String St := do
  let next_nodes ← next_tasks.mapM (fun name =>
    match cls.get_node name with
    | some nd => Except.ok nd
    | none => Except.error "KeyError")
  let db0 := { s.db with processes := s.db.processes.map (fun r =>
    if r.id = some processPk then { r with modified := s.db.now } else r) }
  let active := db0.tasks.filter (fun t =>
    t._process_id == processPk && t.completed == none)
  let db1 ← finishActive active db0
  let r := db1.insertTask { _process_id := processPk, node_name := "manual_override" }
  let ov := r.1
  let ovPk := ov.id.getD 0
  let db3 :=
    { r.2 with
      links := r.2.links.filter (fun l => l.2 != ovPk) ++
        active.map (fun t => (t.id.getD 0, ovPk)) }
  let r2 ← Task.finish ov none db3
  let r3 ← Task.start_next_tasks r2.1 cls (some next_nodes) { s with db := r2.2 }
  pure r3.2

/-- The joeflow `Task` columns referenced by `TaskViewMixin.get_task` in
src/joeflow/views.py (`pk`, `name`, `type`, `completed`); the joeflow model
definition itself is not part of the sources, so only these fields are
carried. -/
structure JTask where
  pk : Option Nat := none
  name : String := ""
  type : String := ""
  completed : Option Nat := none
deriving DecidableEq, Repr

/-- `TaskViewMixin.get_task` (src/joeflow/views.py): same shape as the
galahad version — `get_object_or_404(Task, pk=..., name=self.name,
completed=None)` behind a `KeyError` guard on the URL kwargs; the fresh
task here is created with `type=models.Task.HUMAN`. -/
def Joeflow.get_task (name : String) (kwargs_pk : Option Nat)
    (rows : List JTask) : Except String JTask :=
  match kwargs_pk with
  | some pk =>
    match rows.find? (fun t =>
        t.pk == some pk && t.name == name && t.completed == none) with
    | some t => Except.ok t
    | none => Except.error "Http404"
  | none => Except.ok { name := name, type := HUMAN }

/-- Well-formedness of the database, as Django guarantees it: every stored
row has a primary key below the sequence counter, primary keys are unique,
and every `parent_task_set` link goes from an older pk to a strictly newer
pk, both below the counter. -/
def DB.wf (db : DB) : Bool :=
  (db.tasks.all (fun t =>
    match t.id with
    | some pk => decide (pk < db.nextId)
    | none => false)) &&
  decide ((db.tasks.map (fun t => t.id)).Nodup) &&
  (db.links.all (fun l => decide (l.1 < l.2) && decide (l.2 < db.nextId)))

/-- The rows `start_next_tasks` inserts for successor nodes `nodes`, starting
at primary key `k`: the closed form of the `task_set.create` calls. -/
def mkTasks (pid now : Nat) : Nat → List Node → List Task
  | _, [] => []
  | k, node :: rest =>
    { id := some k, _process_id := pid, node_name := node.node_name,
      node_type := node.node_type, created := now, modified := now } ::
    mkTasks pid now (k + 1) rest

/-- The pks of the machine (callable) successors among `nodes`, row pks
starting at `k`: exactly the tasks `start_next_tasks` defers to `enqueue`. -/
def machinePks : Nat → List Node → List Nat
  | _, [] => []
  | k, node :: rest =>
    (if node.isCallable then [k] else []) ++ machinePks (k + 1) rest

/-- The `on_commit` hooks `start_next_tasks` registers. -/
def enqueueHooks (k : Nat) (nodes : List Node) : List Action :=
  (machinePks k nodes).map Action.runEnqueue

/-- Effect of `Task.finish` (with no user) on the stored row at clock `now`. -/
def finishRow (now : Nat) (r : Task) : Task :=
  { r with status := SUCCEEDED, completed := some now,
           completed_by_user := none, modified := now }

/-- Effect of `Task.enqueue` on the stored row at clock `now`. -/
def resetRow (now : Nat) (r : Task) : Task :=
  { r with status := SCHEDULED, completed := none,
           exception := "", stacktrace := "", modified := now }

/-- Reachability along `parent_task_set` links (the transitive closure of
the parent-to-child relation). -/
inductive Reaches (links : List (Nat × Nat)) : Nat → Nat → Prop where
  | step (a b : Nat) : (a, b) ∈ links → Reaches links a b
  | trans (a b c : Nat) : Reaches links a b → Reaches links b c →
      Reaches links a c

/-- The link relation has no cycle. -/
def Acyclic (links : List (Nat × Nat)) : Prop :=
  ∀ a, ¬ Reaches links a a

/-- Demo fixture: a create-view human node. -/
def demoStart : Node := Node.humanView "start" true

/-- Demo fixture: an update-view human node. -/
def demoReview : Node := Node.humanView "review" false

/-- Demo fixture: a machine node (a callable function). -/
def demoSend : Node := Node.machineFunc "send_mail"

/-- Demo fixture: a process class whose `start` node leads to a human
`review` node and a machine `send_mail` node. -/
def demoCls : ProcessCls :=
  { name := "Demo", edges := [(demoStart, demoReview), (demoStart, demoSend)] }

/-- Demo fixture: a persisted `start` task of process 1. -/
def demoTask : Task :=
  { id := some 1, _process_id := 1, node_name := "start", node_type := HUMAN }

/-- Demo fixture: a database holding the demo task and its process row. -/
def demoDB : DB :=
  { tasks := [demoTask], links := [], processes := [{ id := some 1 }],
    nextId := 2, pNextId := 2, now := 5 }

/-- Demo fixture: a transaction state over the demo database. -/
def demoSt : St := { db := demoDB }

/-- Demo fixture: a formatted traceback as `traceback.format_exception`
returns it. -/
def demoTb : List String :=
  ["Traceback (most recent call last):\n",
   "  File example.py, line 1, in start\n",
   "ValueError: boom\n"]

/-- The node-derived prefix of `Process.urls` (the loop part, before the
detail and override patterns are appended). -/
def nodeUrlPatterns (cls : ProcessCls) : List UrlPattern :=
  (cls.get_nodes).filterMap (fun p =>
    if p.2.isTaskViewMixin then
      some { route := if p.2.isBaseCreateView then p.1 ++ "/" else p.1 ++ "/<pk>/",
             name := p.1 }
    else none)

/-- The tasks of process `pid` with no completion timestamp — the
`task_set.filter(completed=None)` queryset of the override view. -/
def activeTasks (pid : Nat) (db : DB) : List Task :=
  db.tasks.filter (fun t => t._process_id == pid && t.completed == none)

/-- The row the override view inserts for the `manual_override` task
(`node_type` keeps the column default, the empty string). -/
def overrideRow (pid pk now : Nat) : Task :=
  { id := some pk, _process_id := pid, node_name := "manual_override",
    created := now, modified := now }

/-- The database produced by a successful override of process `processPk`
re-entering at nodes `nds`: the active rows finished, the finished
`manual_override` row appended with the active rows as parents, one fresh
scheduled row per chosen node parented to the override row, and the process
row's auto-now stamp refreshed. -/
def formValidDB (processPk : Nat) (nds : List Node) (db : DB) : DB :=
  { tasks :=
      (db.tasks.map (fun r =>
        if (activeTasks processPk db).any (fun t => r.id == t.id) then
          finishRow db.now r
        else r)) ++
      [finishRow db.now (overrideRow processPk db.nextId db.now)] ++
      mkTasks processPk db.now (db.nextId + 1) nds
    links := db.links ++
      (activeTasks processPk db).map (fun t => (t.id.getD 0, db.nextId)) ++
      (mkTasks processPk db.now (db.nextId + 1) nds).map
        (fun t => (db.nextId, t.id.getD 0))
    processes := db.processes.map (fun r =>
      if r.id = some processPk then { r with modified := db.now } else r)
    nextId := db.nextId + 1 + nds.length
    pNextId := db.pNextId
    now := db.now }

/-
  ######################################################################
  Theorems
  ######################################################################
-/

/-- C3, counterexample: the claim demands that *every* save of a persisted
record without `update_fields` raises — including saves of persisted
`Process` records — but `Process.save` on a persisted row with no
`update_fields` succeeds (and performs a full-row write). -/
theorem C3_counterexample_process_save_succeeds :
    (ProcessRec.save { id := some 1 } none
      { processes := [{ id := some 1 }], now := 5 }).isOk = true := by
  decide

/-- C3, amended: only `Task.save` enforces explicit `update_fields`: a
persisted `Task` saved without them raises and the database is untouched,
while `Process.save` accepts a missing `update_fields` and performs a
full-row write without error. -/
theorem C3_amended_update_fields_required_for_tasks_only :
    (∀ (t : Task) (pk : Nat) (db : DB), t.id = some pk →
      Task.save t none db =
        Except.error "You need to provide explicit update_fields to avoid race conditions.") ∧
    (∀ (p : ProcessRec) (pk : Nat) (db : DB), p.id = some pk →
      (ProcessRec.save p none db).isOk = true) := by
  constructor
  · intro t pk db h
    simp [Task.save, h]
  · intro p pk db h
    simp [ProcessRec.save, h, Except.isOk, Except.toBool]

/-- C3, witness: the amended statement at the demo task and process rows. -/
theorem C3_amended_witness :
    Task.save demoTask none demoDB =
      Except.error "You need to provide explicit update_fields to avoid race conditions." ∧
    (ProcessRec.save { id := some 1 } none demoDB).isOk = true :=
  ⟨C3_amended_update_fields_required_for_tasks_only.1 demoTask 1 demoDB rfl,
   C3_amended_update_fields_required_for_tasks_only.2 { id := some 1 } 1 demoDB rfl⟩

/-- C5, code bug: `Task.fail` captures the traceback into `exception` and
`stacktrace` and sets the in-memory completion timestamp, but omits
`completed` from `update_fields`, so the stored row keeps `completed=None`:
evaluated at a persisted demo task with an active `ValueError`, the
in-memory instance carries `completed = some 5` while the database row
still has `completed = none` (status, exception and stacktrace are
persisted). -/
theorem C5_fail_completed_not_persisted :
    (Task.fail demoTask demoTb demoDB).toOption.map (fun r =>
      (r.1.completed, r.1.status, r.1.exception,
       r.2.tasks.map (fun t => (t.completed, t.status, t.exception, t.stacktrace))))
    = some (some 5, FAILED, "ValueError: boom",
        [(none, FAILED, "ValueError: boom",
          "Traceback (most recent call last):\n  File example.py, line 1, in start\nValueError: boom\n")]) := by
  rfl

/-- C6, counterexample: `start` is a human node of the demo process (a
`BaseCreateView`), yet `urls()` contains no route `start/<pk>/` for it —
create views are routed at `start/` without the pk segment, contradicting
the claim that each human node is routed at `<node>/<pk>/`. -/
theorem C6_counterexample_create_view_route :
    ("start", demoStart) ∈ demoCls.get_nodes ∧
    demoStart.isTaskViewMixin = true ∧
    ({ route := "start/<pk>/", name := "start" } : UrlPattern) ∉ demoCls.urls ∧
    ({ route := "start/", name := "start" } : UrlPattern) ∈ demoCls.urls := by
  decide

/-- C6, amended: `urls()` maps each human update-view node to a route
`<node>/<pk>/` and each human create-view node to `<node>/`, gives machine
nodes no route (every generated pattern is either a human-node route or one
of the two trailing views), and always appends the detail view `<pk>/` and
the override view `<pk>/override` after the node routes. -/
theorem C6_amended_urls_spec (cls : ProcessCls) :
    (∀ p ∈ cls.get_nodes, p.2.isTaskViewMixin = true →
      ({ route := if p.2.isBaseCreateView then p.1 ++ "/" else p.1 ++ "/<pk>/",
         name := p.1 } : UrlPattern) ∈ cls.urls) ∧
    (∀ u ∈ cls.urls,
      (∃ p ∈ cls.get_nodes, p.2.isTaskViewMixin = true ∧
        u = { route := if p.2.isBaseCreateView then p.1 ++ "/" else p.1 ++ "/<pk>/",
              name := p.1 }) ∨
      u = { route := "<pk>/", name := "detail" } ∨
      u = { route := "<pk>/override", name := "override" }) ∧
    (∃ nodeRoutes, cls.urls = nodeRoutes ++
        [{ route := "<pk>/", name := "detail" },
         { route := "<pk>/override", name := "override" }] ∧
      ∀ u ∈ nodeRoutes, ∃ p ∈ cls.get_nodes,
        p.2.isTaskViewMixin = true ∧
        u = { route := if p.2.isBaseCreateView then p.1 ++ "/" else p.1 ++ "/<pk>/",
              name := p.1 }) := by
  refine ⟨?_, ?_, ?_⟩
  · intro p hp hhuman
    unfold ProcessCls.urls
    refine List.mem_append_left _ (List.mem_filterMap.2 ⟨p, hp, ?_⟩)
    simp [hhuman]
  · intro u hu
    unfold ProcessCls.urls at hu
    rcases List.mem_append.1 hu with h | h
    · rcases List.mem_filterMap.1 h with ⟨p, hp, hval⟩
      by_cases hhuman : p.2.isTaskViewMixin = true
      · left
        exact ⟨p, hp, hhuman, by simp [hhuman] at hval; exact hval.symm⟩
      · simp [hhuman] at hval
    · simp at h
      rcases h with h | h
      · right; left; exact h
      · right; right; exact h
  · refine ⟨nodeUrlPatterns cls, rfl, ?_⟩
    intro u hu
    rcases List.mem_filterMap.1 hu with ⟨p, hp, hval⟩
    by_cases hhuman : p.2.isTaskViewMixin = true
    · exact ⟨p, hp, hhuman, by simp [hhuman] at hval; exact hval.symm⟩
    · simp [hhuman] at hval

/-- C6, witness of the amended statement at the demo process: the create
view `start` is routed at `start/`, the update view `review` at
`review/<pk>/`, detail and override are appended at the end. -/
theorem C6_amended_witness :
    ({ route := "start/", name := "start" } : UrlPattern) ∈ demoCls.urls ∧
    ({ route := "review/<pk>/", name := "review" } : UrlPattern) ∈ demoCls.urls ∧
    (∃ nodeRoutes, demoCls.urls = nodeRoutes ++
      [{ route := "<pk>/", name := "detail" },
       { route := "<pk>/override", name := "override" }] ∧
      ∀ u ∈ nodeRoutes, ∃ p ∈ demoCls.get_nodes,
        p.2.isTaskViewMixin = true ∧
        u = { route := if p.2.isBaseCreateView then p.1 ++ "/" else p.1 ++ "/<pk>/",
              name := p.1 }) := by
  refine ⟨?_, ?_, (C6_amended_urls_spec demoCls).2.2⟩
  · have h := (C6_amended_urls_spec demoCls).1 ("start", demoStart) (by decide) (by decide)
    simpa using h
  · have h := (C6_amended_urls_spec demoCls).1 ("review", demoReview) (by decide) (by decide)
    simpa using h

/-- C8: a request carrying a pk that matches no task with the view's node
name and `completed=None` raises `Http404`, in both the galahad and the
joeflow version of `TaskViewMixin.get_task`; only a request with no pk at
all proceeds with a fresh unsaved task. -/
theorem C8_get_task_404_or_fresh :
    (∀ (node_name : String) (pk : Nat) (db : DB),
      (∀ t ∈ db.tasks, ¬(t.id = some pk ∧ t.node_name = node_name ∧ t.completed = none)) →
      TaskViewMixin.get_task node_name (some pk) db = Except.error "Http404") ∧
    (∀ (node_name : String) (db : DB),
      TaskViewMixin.get_task node_name none db =
        Except.ok { node_name := node_name }) ∧
    (∀ (name : String) (pk : Nat) (rows : List JTask),
      (∀ t ∈ rows, ¬(t.pk = some pk ∧ t.name = name ∧ t.completed = none)) →
      Joeflow.get_task name (some pk) rows = Except.error "Http404") ∧
    (∀ (name : String) (rows : List JTask),
      Joeflow.get_task name none rows =
        Except.ok { name := name, type := HUMAN }) := by
  refine ⟨?_, fun _ _ => rfl, ?_, fun _ _ => rfl⟩
  · intro node_name pk db h
    have hfind : db.tasks.find? (fun t =>
        t.id == some pk && t.node_name == node_name && t.completed == none) = none := by
      rw [List.find?_eq_none]
      intro t ht
      have := h t ht
      simp only [Bool.and_eq_true, beq_iff_eq]
      intro hc
      exact this ⟨hc.1.1, hc.1.2, hc.2⟩
    simp only [TaskViewMixin.get_task, hfind]
  · intro name pk rows h
    have hfind : rows.find? (fun t =>
        t.pk == some pk && t.name == name && t.completed == none) = none := by
      rw [List.find?_eq_none]
      intro t ht
      have := h t ht
      simp only [Bool.and_eq_true, beq_iff_eq]
      intro hc
      exact this ⟨hc.1.1, hc.1.2, hc.2⟩
    simp only [Joeflow.get_task, hfind]

/-- C8, witness: pk 9 matches nothing in the demo database (its only task is
pk 1, node `start`, uncompleted), so both views raise `Http404`; with no pk
both proceed with fresh unsaved tasks. -/
theorem C8_witness :
    TaskViewMixin.get_task "review" (some 9) demoDB = Except.error "Http404" ∧
    TaskViewMixin.get_task "review" none demoDB =
      Except.ok { node_name := "review" } ∧
    Joeflow.get_task "review" (some 9) [] = Except.error "Http404" ∧
    Joeflow.get_task "review" none [] = Except.ok { name := "review", type := HUMAN } :=
  ⟨C8_get_task_404_or_fresh.1 "review" 9 demoDB (by decide),
   C8_get_task_404_or_fresh.2.1 "review" demoDB,
   C8_get_task_404_or_fresh.2.2.1 "review" 9 [] (by decide),
   C8_get_task_404_or_fresh.2.2.2 "review" []⟩

/-- C10: `get_absolute_url` is a total function (the embedding returns an
`Option`, the `NoReverseMatch` being swallowed in the source): a completed
task gets no URL, an uncompleted task whose route name is not registered
gets no URL, and an uncompleted task with a registered route gets one. -/
theorem C10_get_absolute_url_total :
    (∀ (t : Task) (cls : ProcessCls) (registered : List String) (x : Nat),
      t.completed = some x → t.get_absolute_url cls registered = none) ∧
    (∀ (t : Task) (cls : ProcessCls) (registered : List String),
      t.completed = none →
      (cls.get_url_namespace ++ ":" ++ t.node_name) ∉ registered →
      t.get_absolute_url cls registered = none) ∧
    (∀ (t : Task) (cls : ProcessCls) (registered : List String),
      t.completed = none →
      (cls.get_url_namespace ++ ":" ++ t.node_name) ∈ registered →
      ∃ u, t.get_absolute_url cls registered = some u) := by
  refine ⟨?_, ?_, ?_⟩
  · intro t cls registered x h
    simp [Task.get_absolute_url, h]
  · intro t cls registered h hreg
    simp [Task.get_absolute_url, h, hreg]
  · intro t cls registered h hreg
    refine ⟨cls.get_url_namespace ++ ":" ++ t.node_name ++ "/" ++
      toString (t.id.getD 0) ++ "/", ?_⟩
    simp [Task.get_absolute_url, h, hreg]

/-- C10, witness: the demo task completed (no URL), uncompleted with an
empty route registry (no URL), and uncompleted with its own route name
registered (a URL). -/
theorem C10_witness :
    Task.get_absolute_url { demoTask with completed := some 5 } demoCls
      [demoCls.get_url_namespace ++ ":" ++ demoTask.node_name] = none ∧
    Task.get_absolute_url demoTask demoCls [] = none ∧
    ∃ u, Task.get_absolute_url demoTask demoCls
      [demoCls.get_url_namespace ++ ":" ++ demoTask.node_name] = some u :=
  ⟨C10_get_absolute_url_total.1 { demoTask with completed := some 5 } demoCls
      [demoCls.get_url_namespace ++ ":" ++ demoTask.node_name] 5 rfl,
   C10_get_absolute_url_total.2.1 demoTask demoCls [] rfl (by simp),
   C10_get_absolute_url_total.2.2 demoTask demoCls
      [demoCls.get_url_namespace ++ ":" ++ demoTask.node_name] rfl (by simp)⟩

/-- Closed form of the `start_next_tasks` loop: it appends one freshly
inserted row per successor node, appends one parent link from `selfPk` to
each new row, bumps the pk counter, registers one deferred `enqueue` hook
per callable node, and touches nothing else (in particular not the queue). -/
theorem startLoop_eq (pid selfPk : Nat) (nodes : List Node) (s : St) :
    Task.startLoop pid selfPk nodes s =
      (mkTasks pid s.db.now s.db.nextId nodes,
       { s with
         db := { s.db with
                 tasks := s.db.tasks ++ mkTasks pid s.db.now s.db.nextId nodes
                 links := s.db.links ++ (mkTasks pid s.db.now s.db.nextId nodes).map
                   (fun t => (selfPk, t.id.getD 0))
                 nextId := s.db.nextId + nodes.length }
         onCommit := s.onCommit ++ enqueueHooks s.db.nextId nodes }) := by
  induction nodes generalizing s with
  | nil =>
    simp [Task.startLoop, mkTasks, enqueueHooks, machinePks]
  | cons node rest ih =>
    simp only [Task.startLoop, DB.insertTask, mkTasks, enqueueHooks, machinePks]
    rw [ih]
    obtain ⟨⟨tasks, links, procs, nid, pnid, now⟩, oc, q⟩ := s
    by_cases hc : node.isCallable = true <;>
      simp [hc, List.append_assoc, List.map] <;>
      exact ⟨by omega, rfl⟩

theorem mkTasks_length (pid now k : Nat) (nodes : List Node) :
    (mkTasks pid now k nodes).length = nodes.length := by
  induction nodes generalizing k with
  | nil => rfl
  | cons node rest ih => simp [mkTasks, ih]

/-- Shape of each created row, paired with the node it came from. -/
theorem mkTasks_zip_shape (pid now : Nat) (k : Nat) (nodes : List Node) :
    ∀ p ∈ (mkTasks pid now k nodes).zip nodes,
      p.1.node_name = p.2.node_name ∧ p.1.node_type = p.2.node_type ∧
      p.1.status = SCHEDULED ∧ p.1.completed = none ∧
      p.1._process_id = pid := by
  induction nodes generalizing k with
  | nil => intro p hp; simp [mkTasks] at hp
  | cons node rest ih =>
    intro p hp
    simp only [mkTasks, List.zip_cons_cons, List.mem_cons] at hp
    rcases hp with h | h
    · subst h; exact ⟨rfl, rfl, rfl, rfl, rfl⟩
    · exact ih (k + 1) p h

/-- The pk of each created row, paired with its position. -/
theorem mkTasks_mem_id (pid now k : Nat) (nodes : List Node) :
    ∀ r ∈ mkTasks pid now k nodes, ∃ j, r.id = some j ∧ k ≤ j ∧
      j < k + nodes.length := by
  induction nodes generalizing k with
  | nil => intro r hr; simp [mkTasks] at hr
  | cons node rest ih =>
    intro r hr
    simp only [mkTasks, List.mem_cons] at hr
    rcases hr with h | h
    · subst h; exact ⟨k, rfl, Nat.le_refl k, by simp⟩
    · obtain ⟨j, hj, hk, hlt⟩ := ih (k + 1) r h
      exact ⟨j, hj, Nat.le_of_succ_le hk, by simp at hlt ⊢; omega⟩

/-- Every created row carrying pk `j` is a clean scheduled row of process
`pid` with `modified = now`. -/
theorem mkTasks_mem_clean (pid now k : Nat) (nodes : List Node) :
    ∀ r ∈ mkTasks pid now k nodes, ∀ j, r.id = some j →
      r.status = SCHEDULED ∧ r.completed = none ∧ r.exception = "" ∧
      r.stacktrace = "" ∧ r.modified = now ∧ r._process_id = pid := by
  induction nodes generalizing k with
  | nil => intro r hr; simp [mkTasks] at hr
  | cons node rest ih =>
    intro r hr j hj
    simp only [mkTasks, List.mem_cons] at hr
    rcases hr with h | h
    · subst h; exact ⟨rfl, rfl, rfl, rfl, rfl, rfl⟩
    · exact ih (k + 1) r h j hj

/-- Some created row carries each pk in the covered range. -/
theorem mkTasks_exists_id (pid now k : Nat) (nodes : List Node) (j : Nat)
    (h1 : k ≤ j) (h2 : j < k + nodes.length) :
    ∃ r ∈ mkTasks pid now k nodes, r.id = some j := by
  induction nodes generalizing k with
  | nil => simp at h2; omega
  | cons node rest ih =>
    by_cases hj : j = k
    · subst hj
      exact ⟨_, List.mem_cons_self _ _, rfl⟩
    · have h1' : k + 1 ≤ j := by omega
      have h2' : j < (k + 1) + rest.length := by simp at h2; omega
      obtain ⟨r, hr, hid⟩ := ih (k + 1) h1' h2'
      exact ⟨r, List.mem_cons_of_mem _ hr, hid⟩

theorem machinePks_bounds (k : Nat) (nodes : List Node) :
    ∀ j ∈ machinePks k nodes, k ≤ j ∧ j < k + nodes.length := by
  induction nodes generalizing k with
  | nil => intro j hj; simp [machinePks] at hj
  | cons node rest ih =>
    intro j hj
    simp only [machinePks, List.mem_append] at hj
    rcases hj with h | h
    · rcases hc : node.isCallable with _ | _ <;> simp [hc] at h
      subst h; simp
    · obtain ⟨h1, h2⟩ := ih (k + 1) j h
      constructor
      · omega
      · simp; omega

/-- A created row is deferred to `enqueue` exactly when its node is
callable. -/
theorem mkTasks_zip_machine (pid now : Nat) (k : Nat) (nodes : List Node) :
    ∀ p ∈ (mkTasks pid now k nodes).zip nodes,
      (p.2.isCallable = true → p.1.id.getD 0 ∈ machinePks k nodes) ∧
      (p.2.isCallable = false → p.1.id.getD 0 ∉ machinePks k nodes) := by
  induction nodes generalizing k with
  | nil => intro p hp; simp [mkTasks] at hp
  | cons node rest ih =>
    intro p hp
    simp only [mkTasks, List.zip_cons_cons, List.mem_cons] at hp
    rcases hp with h | h
    · subst h
      constructor
      · intro hc
        simp [machinePks, hc]
      · intro hc
        simp [machinePks, hc]
        intro hmem
        have := (machinePks_bounds (k + 1) rest k hmem).1
        omega
    · have hzip := h
      have hid : ∃ j, p.1.id = some j ∧ k + 1 ≤ j ∧ j < (k + 1) + rest.length := by
        have hmem : p.1 ∈ mkTasks pid now (k + 1) rest := List.of_mem_zip hzip |>.1
        exact mkTasks_mem_id pid now (k + 1) rest p.1 hmem
      obtain ⟨j, hj, hk1, _⟩ := hid
      have hgetd : p.1.id.getD 0 = j := by simp [hj]
      constructor
      · intro hc
        have := (ih (k + 1) p hzip).1 hc
        simp [machinePks, List.mem_append]
        right; exact this
      · intro hc
        have hnot := (ih (k + 1) p hzip).2 hc
        simp only [machinePks, List.mem_append]
        intro hor
        rcases hor with hin | hin
        · rcases hcn : node.isCallable with _ | _ <;> simp [hcn] at hin
          rw [hgetd] at hin
          omega
        · exact hnot hin

/-- The column write of `enqueue`'s save touches exactly status, completed,
exception, stacktrace and the auto-now modified column. -/
theorem applyFields_enqueue (t r : Task) :
    (["status", "completed", "exception", "stacktrace"] ++ ["modified"]).foldl
      (fun d f => applyField f t d) r =
    { r with status := t.status, completed := t.completed,
             exception := t.exception, stacktrace := t.stacktrace,
             modified := t.modified } := by
  rfl

/-- The column write of `finish`'s save touches exactly status, completed,
completed_by_user and the auto-now modified column. -/
theorem applyFields_finish (t r : Task) :
    (["status", "completed", "completed_by_user"] ++ ["modified"]).foldl
      (fun d f => applyField f t d) r =
    { r with status := t.status, completed := t.completed,
             completed_by_user := t.completed_by_user,
             modified := t.modified } := by
  rfl

/-- The column write of `fail`'s save touches exactly status, exception,
stacktrace and the auto-now modified column — not `completed`. -/
theorem applyFields_fail (t r : Task) :
    (["status", "exception", "stacktrace"] ++ ["modified"]).foldl
      (fun d f => applyField f t d) r =
    { r with status := t.status, exception := t.exception,
             stacktrace := t.stacktrace, modified := t.modified } := by
  rfl

/-- A row already carrying the reset values is untouched by `resetRow`. -/
theorem resetRow_eq_self (now : Nat) (r : Task)
    (h1 : r.status = SCHEDULED) (h2 : r.completed = none)
    (h3 : r.exception = "") (h4 : r.stacktrace = "") (h5 : r.modified = now) :
    resetRow now r = r := by
  cases r
  simp_all [resetRow]

/-- C9: re-enqueueing a persisted task resets exactly its error state: the
instance and its row get status scheduled, `completed`, `exception` and
`stacktrace` cleared, the auto-now `modified` stamp, and nothing else —
every other column of every row is untouched, as are links, processes and
the pk counter; the celery submission is only deferred to `onCommit`. -/
theorem C9_enqueue_resets_error_state (t : Task) (pk : Nat) (s : St)
    (h : t.id = some pk) :
    ∃ t2 s2, Task.enqueue t s = Except.ok (t2, s2) ∧
      t2 = { t with status := SCHEDULED, completed := none, exception := "",
                    stacktrace := "", modified := s.db.now } ∧
      s2.db.tasks = s.db.tasks.map (fun r =>
        if r.id = some pk then resetRow s.db.now r else r) ∧
      s2.db.links = s.db.links ∧
      s2.db.processes = s.db.processes ∧
      s2.db.nextId = s.db.nextId ∧
      s2.db.now = s.db.now ∧
      s2.queue = s.queue ∧
      s2.onCommit = s.onCommit ++ [Action.celerySubmit pk t._process_id] := by
  obtain ⟨tid, pid0, nn, nt, st, cbu, cr, mo, co, ex, stk⟩ := t
  simp only [Task.id] at h
  subst h
  refine ⟨_, _, rfl, rfl, ?_, rfl, rfl, rfl, rfl, rfl, rfl⟩
  show (DB.updateRow _ _ _ _).2.tasks = _
  simp only [DB.updateRow, applyFields_enqueue, resetRow]

/-- C9, witness: the demo task (pk 1) re-enqueued over the demo state. -/
theorem C9_witness :
    ∃ t2 s2, Task.enqueue demoTask demoSt = Except.ok (t2, s2) ∧
      t2 = { demoTask with status := SCHEDULED, completed := none,
                           exception := "", stacktrace := "",
                           modified := demoSt.db.now } ∧
      s2.db.tasks = demoSt.db.tasks.map (fun r =>
        if r.id = some 1 then resetRow demoSt.db.now r else r) ∧
      s2.db.links = demoSt.db.links ∧
      s2.db.processes = demoSt.db.processes ∧
      s2.db.nextId = demoSt.db.nextId ∧
      s2.db.now = demoSt.db.now ∧
      s2.queue = demoSt.queue ∧
      s2.onCommit = demoSt.onCommit ++
        [Action.celerySubmit 1 demoTask._process_id] :=
  C9_enqueue_resets_error_state demoTask 1 demoSt rfl

/-- C4: no queue submission happens inside the transaction.  A direct call
to `enqueue` leaves the celery queue untouched and only registers the
submission as an `on_commit` hook; `start_next_tasks` likewise leaves the
queue untouched and registers only deferred-`enqueue` hooks for its machine
successors, so the queue can only ever be fed by `St.commit`, after the
rows are committed. -/
theorem C4_queue_submission_only_on_commit :
    (∀ (t : Task) (pk : Nat) (s : St), t.id = some pk →
      ∃ t2 s2, Task.enqueue t s = Except.ok (t2, s2) ∧
        s2.queue = s.queue ∧
        s2.onCommit = s.onCommit ++ [Action.celerySubmit pk t._process_id]) ∧
    (∀ (self : Task) (cls : ProcessCls) (next_nodes : Option (List Node))
        (pk : Nat) (nodes : List Node) (s : St),
      self.id = some pk →
      (next_nodes = some nodes ∨
        (next_nodes = none ∧ ∃ nd, cls.get_node self.node_name = some nd ∧
          nodes = cls.get_next_nodes nd)) →
      ∃ ts s2, Task.start_next_tasks self cls next_nodes s = Except.ok (ts, s2) ∧
        s2.queue = s.queue ∧
        s2.onCommit = s.onCommit ++ enqueueHooks s.db.nextId nodes ∧
        (∀ a ∈ enqueueHooks s.db.nextId nodes, ∃ j, a = Action.runEnqueue j)) := by
  constructor
  · intro t pk s h
    obtain ⟨tid, pid0, nn, nt, st, cbu, cr, mo, co, ex, stk⟩ := t
    simp only [Task.id] at h
    subst h
    exact ⟨_, _, rfl, rfl, rfl⟩
  · intro self cls next_nodes pk nodes s hpk hnodes
    have hrun : Task.start_next_tasks self cls next_nodes s =
        Except.ok (Task.startLoop self._process_id pk nodes s) := by
      rcases hnodes with h | ⟨h, nd, hnd, hsucc⟩
      · subst h
        simp only [Task.start_next_tasks, hpk]
      · subst h; subst hsucc
        simp only [Task.start_next_tasks, hnd, hpk]
    rw [hrun, startLoop_eq]
    refine ⟨_, _, rfl, rfl, rfl, ?_⟩
    intro a ha
    rcases List.mem_map.1 ha with ⟨j, _, hj⟩
    exact ⟨j, hj.symm⟩

/-- C4, witness: a direct `enqueue` of the demo task, and
`start_next_tasks` from the demo task with its default successors. -/
theorem C4_witness :
    (∃ t2 s2, Task.enqueue demoTask demoSt = Except.ok (t2, s2) ∧
      s2.queue = demoSt.queue ∧
      s2.onCommit = demoSt.onCommit ++
        [Action.celerySubmit 1 demoTask._process_id]) ∧
    (∃ ts s2, Task.start_next_tasks demoTask demoCls none demoSt =
        Except.ok (ts, s2) ∧
      s2.queue = demoSt.queue ∧
      s2.onCommit = demoSt.onCommit ++
        enqueueHooks demoSt.db.nextId (demoCls.get_next_nodes demoStart) ∧
      (∀ a ∈ enqueueHooks demoSt.db.nextId (demoCls.get_next_nodes demoStart),
        ∃ j, a = Action.runEnqueue j)) :=
  ⟨C4_queue_submission_only_on_commit.1 demoTask 1 demoSt rfl,
   C4_queue_submission_only_on_commit.2 demoTask demoCls none 1
     (demoCls.get_next_nodes demoStart) demoSt rfl
     (Or.inr ⟨rfl, demoStart, by decide, rfl⟩)⟩

/-- Committing a deferred `enqueue` hook for a pk whose rows are already
clean scheduled rows of process `pid` leaves the database unchanged and
appends exactly the celery submission `(pk, pid)` to the queue. -/
theorem runAction_clean (s : St) (j pid : Nat)
    (hmem : ∃ r ∈ s.db.tasks, r.id = some j)
    (hclean : ∀ r ∈ s.db.tasks, r.id = some j →
      r.status = SCHEDULED ∧ r.completed = none ∧ r.exception = "" ∧
      r.stacktrace = "" ∧ r.modified = s.db.now ∧ r._process_id = pid) :
    St.runAction s (Action.runEnqueue j) =
      { s with queue := s.queue ++ [(j, pid)] } := by
  obtain ⟨r0, hr0, hid0⟩ := hmem
  have hsome : (s.db.tasks.find? (fun r => r.id == some j)).isSome := by
    rw [List.find?_isSome]
    exact ⟨r0, hr0, by simp [hid0]⟩
  obtain ⟨t, hfind⟩ := Option.isSome_iff_exists.1 hsome
  have ht_mem : t ∈ s.db.tasks := List.mem_of_find?_eq_some hfind
  have ht_id : t.id = some j := by
    have := List.find?_some hfind
    simpa using this
  have hmap : s.db.tasks.map (fun r =>
      if r.id = some j then
        { r with status := SCHEDULED, completed := none, exception := "",
                 stacktrace := "", modified := s.db.now }
      else r) = s.db.tasks := by
    have hcongr : ∀ r ∈ s.db.tasks, (if r.id = some j then
        ({ r with status := SCHEDULED, completed := none, exception := "",
                  stacktrace := "", modified := s.db.now } : Task)
      else r) = r := by
      intro r hr
      by_cases hid : r.id = some j
      · obtain ⟨h1, h2, h3, h4, h5, _⟩ := hclean r hr hid
        rw [if_pos hid]
        exact resetRow_eq_self s.db.now r h1 h2 h3 h4 h5
      · rw [if_neg hid]
    calc s.db.tasks.map _ = s.db.tasks.map id := List.map_congr_left hcongr
    _ = s.db.tasks := List.map_id _
  obtain ⟨hst, hco, hex, hstk, hmo, hpid⟩ := hclean t ht_mem ht_id
  obtain ⟨tid, tpid, tnn, tnt, tst, tcbu, tcr, tmo, tco, tex, tstk⟩ := t
  simp only [Task.id] at ht_id
  simp only [Task.status] at hst
  simp only [Task.completed] at hco
  simp only [Task.exception] at hex
  simp only [Task.stacktrace] at hstk
  simp only [Task.modified] at hmo
  simp only [Task._process_id] at hpid
  subst ht_id hst hco hex hstk hmo hpid
  simp only [St.runAction, hfind, Task.enqueue, Task.save, DB.updateRow,
    applyFields_enqueue]
  simp only [hmap]
  rfl

/-- Committing a list of clean deferred `enqueue` hooks appends exactly
their celery submissions, in order, and changes nothing else. -/
theorem runHooks_clean (pks : List Nat) (pid : Nat) (s : St)
    (h : ∀ j ∈ pks,
      (∃ r ∈ s.db.tasks, r.id = some j) ∧
      (∀ r ∈ s.db.tasks, r.id = some j →
        r.status = SCHEDULED ∧ r.completed = none ∧ r.exception = "" ∧
        r.stacktrace = "" ∧ r.modified = s.db.now ∧ r._process_id = pid)) :
    (pks.map Action.runEnqueue).foldl St.runAction s =
      { s with queue := s.queue ++ pks.map (fun j => (j, pid)) } := by
  induction pks generalizing s with
  | nil => simp
  | cons j rest ih =>
    simp only [List.map, List.foldl]
    rw [runAction_clean s j pid (h j (List.mem_cons_self j rest)).1
      (h j (List.mem_cons_self j rest)).2]
    rw [ih { s with queue := s.queue ++ [(j, pid)] }
      (fun i hi => h i (List.mem_cons_of_mem j hi))]
    simp

theorem wf_row_id (db : DB) (h : db.wf = true) :
    ∀ t ∈ db.tasks, ∃ pk, t.id = some pk ∧ pk < db.nextId := by
  intro t ht
  simp only [DB.wf, Bool.and_eq_true, List.all_eq_true] at h
  have h1 := h.1.1 t ht
  cases hid : t.id with
  | none => rw [hid] at h1; simp at h1
  | some pk =>
    rw [hid] at h1
    simp at h1
    exact ⟨pk, rfl, h1⟩

theorem wf_links_lt (db : DB) (h : db.wf = true) :
    ∀ l ∈ db.links, l.1 < l.2 ∧ l.2 < db.nextId := by
  intro l hl
  simp only [DB.wf, Bool.and_eq_true, List.all_eq_true] at h
  have h2 := h.2 l hl
  simpa using h2

theorem wf_ids_nodup (db : DB) (h : db.wf = true) :
    (db.tasks.map (fun t => t.id)).Nodup := by
  simp only [DB.wf, Bool.and_eq_true, List.all_eq_true, decide_eq_true_eq] at h
  exact h.1.2

/-- C1: `start_next_tasks` with no explicit `next_nodes`, called on a saved
task of a well-formed database with no hooks pending: it creates exactly one
new child row per successor (an end node of an edge whose start node shares
the task's node name), appended to the task table; each child mirrors its
node's name and type and starts scheduled and uncompleted; each child is
linked to the calling task in `parent_task_set`; and on transaction commit
exactly the machine (callable) successors are submitted to the celery
queue, while the human successors are not. -/
theorem C1_start_next_tasks_spec (self : Task) (cls : ProcessCls) (nd : Node)
    (pk : Nat) (s : St)
    (hpk : self.id = some pk)
    (hnd : cls.get_node self.node_name = some nd)
    (hwf : s.db.wf = true)
    (hoc : s.onCommit = []) :
    ∃ ts s2, Task.start_next_tasks self cls none s = Except.ok (ts, s2) ∧
      ts.length = (cls.get_next_nodes nd).length ∧
      s2.db.tasks = s.db.tasks ++ ts ∧
      (∀ p ∈ ts.zip (cls.get_next_nodes nd),
        p.1.node_name = p.2.node_name ∧ p.1.node_type = p.2.node_type ∧
        p.1.status = SCHEDULED ∧ p.1.completed = none ∧
        p.1._process_id = self._process_id) ∧
      s2.db.links = s.db.links ++ ts.map (fun t => (pk, t.id.getD 0)) ∧
      (∃ subs, (s2.commit).queue = s.queue ++ subs ∧
        ∀ p ∈ ts.zip (cls.get_next_nodes nd),
          (p.2.isCallable = true → (p.1.id.getD 0, self._process_id) ∈ subs) ∧
          (p.2.isCallable = false → (p.1.id.getD 0, self._process_id) ∉ subs)) := by
  have hrun : Task.start_next_tasks self cls none s =
      Except.ok (Task.startLoop self._process_id pk (cls.get_next_nodes nd) s) := by
    simp only [Task.start_next_tasks, hnd, hpk]
  rw [hrun, startLoop_eq]
  refine ⟨_, _, rfl, mkTasks_length _ _ _ _, rfl, ?_, rfl, ?_⟩
  · intro p hp
    have h1 := mkTasks_zip_shape self._process_id s.db.now s.db.nextId
      (cls.get_next_nodes nd) p hp
    exact ⟨h1.1, h1.2.1, h1.2.2.1, h1.2.2.2.1, h1.2.2.2.2⟩
  · refine ⟨(machinePks s.db.nextId (cls.get_next_nodes nd)).map
      (fun j => (j, self._process_id)), ?_, ?_⟩
    · show (St.commit _).queue = _
      simp only [St.commit, hoc, List.nil_append, enqueueHooks]
      rw [runHooks_clean (machinePks s.db.nextId (cls.get_next_nodes nd))
        self._process_id _ ?_]
      intro i hi
      obtain ⟨hge, hlt⟩ := machinePks_bounds s.db.nextId (cls.get_next_nodes nd) i hi
      constructor
      · obtain ⟨r, hr, hid⟩ := mkTasks_exists_id self._process_id s.db.now
          s.db.nextId (cls.get_next_nodes nd) i hge hlt
        exact ⟨r, List.mem_append_right _ hr, hid⟩
      · intro r hr hid
        rcases List.mem_append.1 hr with hold | hnew
        · obtain ⟨pk', hpk', hlt'⟩ := wf_row_id s.db hwf r hold
          rw [hpk'] at hid
          simp at hid
          omega
        · exact mkTasks_mem_clean self._process_id s.db.now s.db.nextId
            (cls.get_next_nodes nd) r hnew i hid
    · intro p hp
      have hm := mkTasks_zip_machine self._process_id s.db.now s.db.nextId
        (cls.get_next_nodes nd) p hp
      constructor
      · intro hc
        exact List.mem_map.2 ⟨p.1.id.getD 0, hm.1 hc, rfl⟩
      · intro hc hmem
        rcases List.mem_map.1 hmem with ⟨i, hi, heq⟩
        have : i = p.1.id.getD 0 := congrArg Prod.fst heq
        rw [this] at hi
        exact hm.2 hc hi

/-- C1, witness: the demo `start` task advanced over the demo state; its
successors are the human `review` node and the machine `send_mail` node. -/
theorem C1_witness :
    ∃ ts s2, Task.start_next_tasks demoTask demoCls none demoSt =
        Except.ok (ts, s2) ∧
      ts.length = (demoCls.get_next_nodes demoStart).length ∧
      s2.db.tasks = demoSt.db.tasks ++ ts ∧
      (∀ p ∈ ts.zip (demoCls.get_next_nodes demoStart),
        p.1.node_name = p.2.node_name ∧ p.1.node_type = p.2.node_type ∧
        p.1.status = SCHEDULED ∧ p.1.completed = none ∧
        p.1._process_id = demoTask._process_id) ∧
      s2.db.links = demoSt.db.links ++ ts.map (fun t => (1, t.id.getD 0)) ∧
      (∃ subs, (s2.commit).queue = demoSt.queue ++ subs ∧
        ∀ p ∈ ts.zip (demoCls.get_next_nodes demoStart),
          (p.2.isCallable = true → (p.1.id.getD 0, demoTask._process_id) ∈ subs) ∧
          (p.2.isCallable = false → (p.1.id.getD 0, demoTask._process_id) ∉ subs)) :=
  C1_start_next_tasks_spec demoTask demoCls demoStart 1 demoSt rfl
    (by decide) (by decide) rfl

theorem finishRow_idem (now : Nat) (r : Task) :
    finishRow now (finishRow now r) = finishRow now r := rfl

theorem finishRow_id (now : Nat) (r : Task) :
    (finishRow now r).id = r.id := rfl

/-- Closed form of the finishing loop of the override view: it succeeds as
soon as every task of the list is persisted, and maps every row whose pk
occurs in the list to its finished version (clock stamped), leaving every
other row untouched. -/
theorem finishActive_eq (l : List Task) (db : DB)
    (h : ∀ t ∈ l, ∃ pk, t.id = some pk) :
    finishActive l db = Except.ok { db with tasks := db.tasks.map (fun r =>
      if l.any (fun t => r.id == t.id) then finishRow db.now r else r) } := by
  induction l generalizing db with
  | nil =>
    show Except.ok db = _
    simp only [List.any_nil, Bool.false_eq_true, if_false, List.map_id']
  | cons t rest ih =>
    obtain ⟨pk, hpk⟩ := h t (List.mem_cons_self t rest)
    have hstep : Task.finish t none db = Except.ok
        ({ { t with completed := some db.now, status := SUCCEEDED,
                    completed_by_user := none } with modified := db.now },
         { db with tasks := db.tasks.map (fun r =>
            if r.id = some pk then finishRow db.now r else r) }) := by
      simp only [Task.finish, Task.save, hpk, DB.updateRow, applyFields_finish]
      rfl
    show (Task.finish t none db).map (fun r => r.2) >>= finishActive rest = _
    rw [hstep]
    show finishActive rest _ = _
    rw [ih _ (fun t' ht' => h t' (List.mem_cons_of_mem t ht'))]
    simp only [DB.now, DB.tasks, List.map_map]
    have hcomp : List.map
        ((fun r => if (rest.any fun t' => r.id == t'.id) = true then
            finishRow db.now r else r) ∘ fun r =>
          if r.id = some pk then finishRow db.now r else r) db.tasks =
        List.map (fun r => if ((t :: rest).any fun t' => r.id == t'.id) = true then
          finishRow db.now r else r) db.tasks := by
      apply List.map_congr_left
      intro r _
      simp only [Function.comp]
      by_cases hid : r.id = some pk
      · rw [if_pos hid]
        have hany : ((t :: rest).any fun t' => r.id == t'.id) = true := by
          simp only [List.any_cons, Bool.or_eq_true]
          left
          rw [hid, hpk]
          exact beq_self_eq_true _
        rw [hany]
        simp only [if_true]
        rw [finishRow_id]
        by_cases hrest : (rest.any fun t' => r.id == t'.id) = true
        · rw [if_pos hrest, finishRow_idem]
        · rw [if_neg hrest]
      · rw [if_neg hid]
        have hhead : (r.id == t.id) = false := by
          rw [hpk]
          exact beq_eq_false_iff_ne.2 hid
        simp only [List.any_cons, hhead, Bool.false_or]
    rw [hcomp]

theorem except_bind_ok {α β : Type} (a : α) (f : α → Except String β) :
    (Except.ok a : Except String α) >>= f = f a := rfl

theorem except_pure_eq {α : Type} (a : α) :
    (pure a : Except String α) = Except.ok a := rfl

theorem form_valid_eq (cls : ProcessCls) (processPk : Nat)
    (next_tasks : List String) (nds : List Node) (s : St)
    (hres : next_tasks.mapM (fun name =>
      match cls.get_node name with
      | some nd => Except.ok nd
      | none => Except.error "KeyError") = Except.ok nds)
    (hwf : s.db.wf = true) :
    ManualOverrideView.form_valid cls processPk next_tasks s =
      Except.ok
        { db := formValidDB processPk nds s.db
          onCommit := s.onCommit ++ enqueueHooks (s.db.nextId + 1) nds
          queue := s.queue } := by
  have hactive : ∀ t ∈ s.db.tasks.filter (fun t =>
      t._process_id == processPk && t.completed == none), ∃ pk, t.id = some pk := by
    intro t ht
    obtain ⟨pk, hpk, _⟩ := wf_row_id s.db hwf t (List.mem_of_mem_filter ht)
    exact ⟨pk, hpk⟩
  unfold ManualOverrideView.form_valid
  rw [hres]
  simp only [except_bind_ok]
  rw [finishActive_eq _ _ ?hpks]
  case hpks => exact hactive
  simp only [except_bind_ok]
  simp only [DB.insertTask]
  simp only [Task.finish, Task.save, DB.updateRow, applyFields_finish]
  simp only [except_bind_ok]
  simp only [Task.start_next_tasks]
  simp only [except_bind_ok, except_pure_eq]
  rw [startLoop_eq]
  dsimp only
  simp only [Option.getD_some]
  have hfilter : List.filter (fun l => l.2 != s.db.nextId) s.db.links = s.db.links := by
    rw [List.filter_eq_self]
    intro l hl
    obtain ⟨_, h2⟩ := wf_links_lt s.db hwf l hl
    simp only [bne_iff_ne, ne_eq]
    omega
  have hA : List.map
      (fun r =>
        if r.id = some s.db.nextId then
          { id := r.id, _process_id := r._process_id, node_name := r.node_name,
            node_type := r.node_type, status := SUCCEEDED, completed_by_user := none,
            created := r.created, modified := s.db.now, completed := some s.db.now,
            exception := r.exception, stacktrace := r.stacktrace }
        else r)
      (List.map
        (fun r =>
          if ((List.filter (fun t => t._process_id == processPk && t.completed == none)
              s.db.tasks).any fun t => r.id == t.id) = true then
            finishRow s.db.now r
          else r)
        s.db.tasks) =
      List.map
        (fun r =>
          if ((List.filter (fun t => t._process_id == processPk && t.completed == none)
              s.db.tasks).any fun t => r.id == t.id) = true then
            finishRow s.db.now r
          else r)
        s.db.tasks := by
    rw [List.map_map]
    apply List.map_congr_left
    intro r0 hr0
    obtain ⟨pk0, hpk0, hlt0⟩ := wf_row_id s.db hwf r0 hr0
    simp only [Function.comp]
    have hid : (if ((List.filter (fun t => t._process_id == processPk && t.completed == none)
        s.db.tasks).any fun t => r0.id == t.id) = true then
          finishRow s.db.now r0
        else r0).id = some pk0 := by
      by_cases hc : ((List.filter (fun t => t._process_id == processPk && t.completed == none)
          s.db.tasks).any fun t => r0.id == t.id) = true
      · rw [if_pos hc, finishRow_id, hpk0]
      · rw [if_neg hc, hpk0]
    rw [if_neg]
    rw [hid]
    simp only [Option.some.injEq]
    omega
  rw [List.map_append, hA, hfilter]
  simp [formValidDB, activeTasks, overrideRow, finishRow]

theorem mapM_get_node_ok (cls : ProcessCls) (names : List String) (nds : List Node)
    (h : names.mapM (fun name =>
      match cls.get_node name with
      | some nd => Except.ok nd
      | none => Except.error "KeyError") = Except.ok nds) :
    nds.length = names.length ∧
    ∀ p ∈ names.zip nds, cls.get_node p.1 = some p.2 := by
  induction names generalizing nds with
  | nil =>
    simp only [List.mapM_nil] at h
    cases h
    simp
  | cons name rest ih =>
    simp only [List.mapM_cons] at h
    cases hnd : cls.get_node name with
    | none => rw [hnd] at h; simp at h; cases h
    | some nd =>
      rw [hnd] at h
      cases hrest : rest.mapM (fun name =>
        match cls.get_node name with
        | some nd => Except.ok nd
        | none => Except.error "KeyError") with
      | error e =>
        rw [hrest] at h
        simp at h
        cases h
      | ok bs =>
        rw [hrest] at h
        simp at h
        obtain ⟨h1, h2⟩ := ih bs hrest
        cases h
        constructor
        · simp [h1]
        · intro p hp
          simp only [List.zip_cons_cons, List.mem_cons] at hp
          rcases hp with hp | hp
          · subst hp; exact hnd
          · exact h2 p hp

theorem nodup_id_inj (db : DB) (hwf : db.wf = true) :
    ∀ t ∈ db.tasks, ∀ r ∈ db.tasks, t.id = r.id → t = r := by
  have hnd := wf_ids_nodup db hwf
  intro t ht r hr heq
  exact List.inj_on_of_nodup_map hnd ht hr heq

/-- C2: a valid override submission naming resolvable next nodes
force-completes every active task of the process (each row with
`completed=None` becomes the succeeded, completion-stamped `finishRow`
version, all other old rows untouched), creates a single `manual_override`
task, itself finished, whose `parent_task_set` is exactly the set of
force-completed tasks, and re-enters the graph with one fresh scheduled
task per chosen node, each parented to the override task. -/
theorem C2_manual_override_spec (cls : ProcessCls) (processPk : Nat)
    (next_tasks : List String) (nds : List Node) (s : St)
    (hres : next_tasks.mapM (fun name =>
      match cls.get_node name with
      | some nd => Except.ok nd
      | none => Except.error "KeyError") = Except.ok nds)
    (hwf : s.db.wf = true) :
    ∃ s2 ovTask children,
      ManualOverrideView.form_valid cls processPk next_tasks s = Except.ok s2 ∧
      nds.length = next_tasks.length ∧
      (∀ p ∈ next_tasks.zip nds, cls.get_node p.1 = some p.2) ∧
      s2.db.tasks = s.db.tasks.map (fun r =>
        if r._process_id == processPk && r.completed == none then
          finishRow s.db.now r
        else r) ++ [ovTask] ++ children ∧
      ovTask.node_name = "manual_override" ∧
      ovTask.id = some s.db.nextId ∧
      ovTask.status = SUCCEEDED ∧
      ovTask.completed = some s.db.now ∧
      ((s2.db.links.filter (fun l => l.2 == s.db.nextId)).map (fun l => l.1) =
        (activeTasks processPk s.db).map (fun t => t.id.getD 0)) ∧
      children.length = nds.length ∧
      (∀ p ∈ children.zip nds,
        p.1.node_name = p.2.node_name ∧ p.1.node_type = p.2.node_type ∧
        p.1.status = SCHEDULED ∧ p.1.completed = none ∧
        (s.db.nextId, p.1.id.getD 0) ∈ s2.db.links) := by
  obtain ⟨hlen, hzipnames⟩ := mapM_get_node_ok cls next_tasks nds hres
  refine ⟨_, finishRow s.db.now (overrideRow processPk s.db.nextId s.db.now),
    mkTasks processPk s.db.now (s.db.nextId + 1) nds,
    form_valid_eq cls processPk next_tasks nds s hres hwf, hlen, hzipnames,
    ?_, rfl, rfl, rfl, rfl, ?_, ?_, ?_⟩
  · show (formValidDB processPk nds s.db).tasks = _
    simp only [formValidDB]
    congr 1
    congr 1
    apply List.map_congr_left
    intro r hr
    have hcond : ((activeTasks processPk s.db).any (fun t => r.id == t.id)) =
        (r._process_id == processPk && r.completed == none) := by
      cases hpred : (r._process_id == processPk && r.completed == none) with
      | true =>
        apply List.any_eq_true.2
        exact ⟨r, List.mem_filter.2 ⟨hr, hpred⟩, beq_self_eq_true _⟩
      | false =>
        apply Bool.eq_false_iff.2
        intro hany
        obtain ⟨t, ht, hbeq⟩ := List.any_eq_true.1 hany
        have ht2 := List.mem_filter.1 ht
        have : t = r := nodup_id_inj s.db hwf t ht2.1 r hr (beq_iff_eq.1 hbeq).symm
        rw [this] at ht2
        rw [ht2.2] at hpred
        cases hpred
    rw [hcond]
  · show ((formValidDB processPk nds s.db).links.filter _).map _ = _
    simp only [formValidDB]
    rw [List.filter_append, List.filter_append]
    have h1 : s.db.links.filter (fun l => l.2 == s.db.nextId) = [] := by
      rw [List.filter_eq_nil_iff]
      intro l hl
      obtain ⟨_, h2⟩ := wf_links_lt s.db hwf l hl
      simp only [beq_iff_eq]
      omega
    have h2 : ((activeTasks processPk s.db).map
        (fun t => (t.id.getD 0, s.db.nextId))).filter (fun l => l.2 == s.db.nextId) =
        (activeTasks processPk s.db).map (fun t => (t.id.getD 0, s.db.nextId)) := by
      rw [List.filter_eq_self]
      intro l hl
      obtain ⟨t, _, hval⟩ := List.mem_map.1 hl
      rw [← hval]
      exact beq_self_eq_true _
    have h3 : ((mkTasks processPk s.db.now (s.db.nextId + 1) nds).map
        (fun t => (s.db.nextId, t.id.getD 0))).filter (fun l => l.2 == s.db.nextId) = [] := by
      rw [List.filter_eq_nil_iff]
      intro l hl
      obtain ⟨t, htmem, hval⟩ := List.mem_map.1 hl
      obtain ⟨j, hj, hge, _⟩ := mkTasks_mem_id processPk s.db.now (s.db.nextId + 1) nds t htmem
      rw [← hval]
      simp only [beq_iff_eq, hj, Option.getD_some]
      omega
    rw [h1, h2, h3, List.nil_append, List.append_nil, List.map_map]
    rfl
  · exact mkTasks_length _ _ _ _
  · intro p hp
    have hsh := mkTasks_zip_shape processPk s.db.now (s.db.nextId + 1) nds p hp
    refine ⟨hsh.1, hsh.2.1, hsh.2.2.1, hsh.2.2.2.1, ?_⟩
    show _ ∈ (formValidDB processPk nds s.db).links
    simp only [formValidDB]
    apply List.mem_append_right
    apply List.mem_map.2
    exact ⟨p.1, (List.of_mem_zip hp).1, rfl⟩


/-- C2, witness: an override of demo process 1 choosing `review` and
`send_mail`; the only active task (pk 1) is force-completed. -/
theorem C2_witness :
    ∃ s2 ovTask children,
      ManualOverrideView.form_valid demoCls 1 ["review", "send_mail"] demoSt =
        Except.ok s2 ∧
      ([demoReview, demoSend] : List Node).length =
        (["review", "send_mail"] : List String).length ∧
      (∀ p ∈ (["review", "send_mail"] : List String).zip [demoReview, demoSend],
        demoCls.get_node p.1 = some p.2) ∧
      s2.db.tasks = demoSt.db.tasks.map (fun r =>
        if r._process_id == 1 && r.completed == none then
          finishRow demoSt.db.now r
        else r) ++ [ovTask] ++ children ∧
      ovTask.node_name = "manual_override" ∧
      ovTask.id = some demoSt.db.nextId ∧
      ovTask.status = SUCCEEDED ∧
      ovTask.completed = some demoSt.db.now ∧
      ((s2.db.links.filter (fun l => l.2 == demoSt.db.nextId)).map (fun l => l.1) =
        (activeTasks 1 demoSt.db).map (fun t => t.id.getD 0)) ∧
      children.length = ([demoReview, demoSend] : List Node).length ∧
      (∀ p ∈ children.zip [demoReview, demoSend],
        p.1.node_name = p.2.node_name ∧ p.1.node_type = p.2.node_type ∧
        p.1.status = SCHEDULED ∧ p.1.completed = none ∧
        (demoSt.db.nextId, p.1.id.getD 0) ∈ s2.db.links) :=
  C2_manual_override_spec demoCls 1 ["review", "send_mail"]
    [demoReview, demoSend] demoSt (by rfl) (by decide)

theorem reaches_lt (links : List (Nat × Nat)) (h : ∀ l ∈ links, l.1 < l.2) :
    ∀ a b, Reaches links a b → a < b := by
  intro a b hr
  induction hr with
  | step a b hmem => exact h (a, b) hmem
  | trans a b c _ _ ih1 ih2 => omega

theorem acyclic_of_increasing (links : List (Nat × Nat))
    (h : ∀ l ∈ links, l.1 < l.2) : Acyclic links := by
  intro a hr
  exact absurd (reaches_lt links h a a hr) (lt_irrefl a)

/-- C7: the `parent_task_set` relation is an append-only DAG.  Both
task-creating operations — `start_next_tasks` and the override view — only
append links; each appended link points from an already existing pk to a
strictly newer, freshly created pk; no existing link is removed or
rewritten; and the resulting relation stays strictly pk-increasing, hence
acyclic. -/
theorem C7_parent_links_append_only_dag :
    (∀ (self : Task) (cls : ProcessCls) (next_nodes : Option (List Node))
        (pk : Nat) (nodes : List Node) (s : St),
      s.db.wf = true →
      self.id = some pk → pk < s.db.nextId →
      (next_nodes = some nodes ∨
        (next_nodes = none ∧ ∃ nd, cls.get_node self.node_name = some nd ∧
          nodes = cls.get_next_nodes nd)) →
      ∃ ts s2, Task.start_next_tasks self cls next_nodes s = Except.ok (ts, s2) ∧
        (∃ new, s2.db.links = s.db.links ++ new ∧
          (∀ l ∈ new, l.1 = pk ∧ l.1 < l.2 ∧ s.db.nextId ≤ l.2)) ∧
        (∀ l ∈ s2.db.links, l.1 < l.2) ∧
        Acyclic s2.db.links) ∧
    (∀ (cls : ProcessCls) (processPk : Nat) (next_tasks : List String)
        (nds : List Node) (s : St),
      next_tasks.mapM (fun name =>
        match cls.get_node name with
        | some nd => Except.ok nd
        | none => Except.error "KeyError") = Except.ok nds →
      s.db.wf = true →
      ∃ s2, ManualOverrideView.form_valid cls processPk next_tasks s =
          Except.ok s2 ∧
        (∃ new, s2.db.links = s.db.links ++ new ∧
          (∀ l ∈ new, l.1 < l.2 ∧ s.db.nextId ≤ l.2)) ∧
        (∀ l ∈ s2.db.links, l.1 < l.2) ∧
        Acyclic s2.db.links) := by
  constructor
  · intro self cls next_nodes pk nodes s hwf hpk hlt hnodes
    have hrun : Task.start_next_tasks self cls next_nodes s =
        Except.ok (Task.startLoop self._process_id pk nodes s) := by
      rcases hnodes with h | ⟨h, nd, hnd, hsucc⟩
      · subst h
        simp only [Task.start_next_tasks, hpk]
      · subst h; subst hsucc
        simp only [Task.start_next_tasks, hnd, hpk]
    rw [hrun, startLoop_eq]
    have hnew : ∀ l ∈ (mkTasks self._process_id s.db.now s.db.nextId nodes).map
        (fun t => (pk, t.id.getD 0)), l.1 = pk ∧ l.1 < l.2 ∧ s.db.nextId ≤ l.2 := by
      intro l hl
      obtain ⟨t, htm, hval⟩ := List.mem_map.1 hl
      obtain ⟨j, hj, hge, _⟩ := mkTasks_mem_id self._process_id s.db.now
        s.db.nextId nodes t htm
      rw [← hval]
      simp only [hj, Option.getD_some]
      exact ⟨by simp, by omega, hge⟩
    have hall : ∀ l ∈ s.db.links ++ (mkTasks self._process_id s.db.now
        s.db.nextId nodes).map (fun t => (pk, t.id.getD 0)), l.1 < l.2 := by
      intro l hl
      rcases List.mem_append.1 hl with h | h
      · exact (wf_links_lt s.db hwf l h).1
      · exact (hnew l h).2.1
    exact ⟨_, _, rfl, ⟨_, rfl, hnew⟩, hall, acyclic_of_increasing _ hall⟩
  · intro cls processPk next_tasks nds s hres hwf
    rw [form_valid_eq cls processPk next_tasks nds s hres hwf]
    have hnew : ∀ l ∈ (activeTasks processPk s.db).map
          (fun t => (t.id.getD 0, s.db.nextId)) ++
        (mkTasks processPk s.db.now (s.db.nextId + 1) nds).map
          (fun t => (s.db.nextId, t.id.getD 0)),
        l.1 < l.2 ∧ s.db.nextId ≤ l.2 := by
      intro l hl
      rcases List.mem_append.1 hl with h | h
      · obtain ⟨t, htm, hval⟩ := List.mem_map.1 h
        obtain ⟨pk0, hpk0, hlt0⟩ := wf_row_id s.db hwf t
          (List.mem_of_mem_filter htm)
        rw [← hval]
        simp only [hpk0, Option.getD_some]
        omega
      · obtain ⟨t, htm, hval⟩ := List.mem_map.1 h
        obtain ⟨j, hj, hge, _⟩ := mkTasks_mem_id processPk s.db.now
          (s.db.nextId + 1) nds t htm
        rw [← hval]
        simp only [hj, Option.getD_some]
        omega
    have hlinks : (formValidDB processPk nds s.db).links = s.db.links ++
        ((activeTasks processPk s.db).map (fun t => (t.id.getD 0, s.db.nextId)) ++
         (mkTasks processPk s.db.now (s.db.nextId + 1) nds).map
           (fun t => (s.db.nextId, t.id.getD 0))) := by
      simp only [formValidDB, List.append_assoc]
    have hall : ∀ l ∈ (formValidDB processPk nds s.db).links, l.1 < l.2 := by
      rw [hlinks]
      intro l hl
      rcases List.mem_append.1 hl with h | h
      · exact (wf_links_lt s.db hwf l h).1
      · exact (hnew l h).1
    exact ⟨_, rfl, ⟨_, hlinks, hnew⟩, hall, acyclic_of_increasing _ hall⟩

/-- C7, witness: both operations at the demo fixtures — advancing the demo
`start` task and overriding demo process 1 at `review`. -/
theorem C7_witness :
    (∃ ts s2, Task.start_next_tasks demoTask demoCls none demoSt =
        Except.ok (ts, s2) ∧
      (∃ new, s2.db.links = demoSt.db.links ++ new ∧
        (∀ l ∈ new, l.1 = 1 ∧ l.1 < l.2 ∧ demoSt.db.nextId ≤ l.2)) ∧
      (∀ l ∈ s2.db.links, l.1 < l.2) ∧
      Acyclic s2.db.links) ∧
    (∃ s2, ManualOverrideView.form_valid demoCls 1 ["review"] demoSt =
        Except.ok s2 ∧
      (∃ new, s2.db.links = demoSt.db.links ++ new ∧
        (∀ l ∈ new, l.1 < l.2 ∧ demoSt.db.nextId ≤ l.2)) ∧
      (∀ l ∈ s2.db.links, l.1 < l.2) ∧
      Acyclic s2.db.links) :=
  ⟨C7_parent_links_append_only_dag.1 demoTask demoCls none 1
      (demoCls.get_next_nodes demoStart) demoSt (by decide) rfl (by decide)
      (Or.inr ⟨rfl, demoStart, by decide, rfl⟩),
   C7_parent_links_append_only_dag.2 demoCls 1 ["review"] [demoReview]
      demoSt (by rfl) (by decide)⟩

end Galahad
